import Mathlib

/-!
Verification of the torchdynamo bytecode-reconstruction emitter and the
torchinductor IR/scheduler against their natural-language specification.

The development shallowly embeds the Python sources:
  - `src/torchdynamo/codegen.py`      (namespace `Codegen`)
  - `src/torchinductor/ir.py`         (namespace `Ir`)
  - `src/torchinductor/scheduler.py`  (namespace `Sched`)
Pure methods become Lean functions; methods that mutate `self` become
functions from the relevant state to the updated state; fatal assertions
become `Option`/`none`.  External collaborators whose code is not part of
the repository snapshot (`bytecode_transformation.create_instruction`,
`utils.is_safe_constant`, `utils.rot_n_helper`, `virtualized.graph`,
`symbolic_convert` helpers) are modelled from the specification's contract
for them, and are marked as such in their doc comments.
-/

namespace Codegen

/-- Modelled from the spec: a Python runtime value, restricted to the kinds
the emitter actually places in a constant table.  `obj` is an arbitrary
Python object whose identity is modelled by a numeric id (its default
equality is identity); `rotHelper n` is the helper callable built by
`utils.rot_n_helper(n)` (whose source is not in the snapshot) -- a fresh
function object on every call, so no two occurrences compare equal. -/
inductive PyVal
  | noneV
  | bool (b : Bool)
  | int (n : Int)
  | str (s : String)
  | obj (oid : Nat)
  | rotHelper (n : Nat)
deriving DecidableEq, Repr

/-- The Python runtime type of a value, as tested by `type(v) is type(value)`
in the constant-table scan. -/
inductive PyType
  | noneT
  | boolT
  | intT
  | strT
  | objT
  | funcT
deriving DecidableEq, Repr

def PyVal.pyType : PyVal → PyType
  | .noneV => .noneT
  | .bool _ => .boolT
  | .int _ => .intT
  | .str _ => .strT
  | .obj _ => .objT
  | .rotHelper _ => .funcT

/-- Python `v == value` on the modelled values.  Booleans compare equal to
the integers 0/1; objects and function objects compare by identity, and two
`rotHelper` values are always distinct objects (the helper is rebuilt on
every call), hence never equal. -/
def pyEq : PyVal → PyVal → Bool
  | .noneV, .noneV => true
  | .bool a, .bool b => a == b
  | .bool a, .int b => (if a then (1 : Int) else 0) == b
  | .int a, .bool b => a == (if b then (1 : Int) else 0)
  | .int a, .int b => a == b
  | .str a, .str b => a == b
  | .obj a, .obj b => a == b
  | .rotHelper _, .rotHelper _ => false
  | _, _ => false

/-- Modelled from the spec: `utils.is_safe_constant` (source not in the
snapshot) recognizes the known-safe literal kinds admitted by the checked
constant-load path. -/
def is_safe_constant : PyVal → Bool
  | .noneV => true
  | .bool _ => true
  | .int _ => true
  | .str _ => true
  | _ => false

/-- Argument slot of an emitted instruction.  The spec says the argument is
a resolved numeric value; the `names` alternative exists because
`create_load_attr` in the source passes the whole `co_names` table where an
index is expected. -/
inductive InstrArg
  | num (n : Nat)
  | names (tbl : List String)
deriving DecidableEq, Repr

/-- Modelled from the spec: an instruction is the triple (opcode name,
resolved argument, optional debug literal), as built by
`bytecode_transformation.create_instruction` (source not in the snapshot). -/
structure Instruction where
  opname : String
  arg : Option InstrArg
  argval : Option PyVal
deriving DecidableEq, Repr

/-- An instruction with no argument: `create_instruction(name)`. -/
def instr0 (opname : String) : Instruction := ⟨opname, none, none⟩

/-- An instruction with a numeric argument: `create_instruction(name, n)`. -/
def instrN (opname : String) (n : Nat) : Instruction :=
  ⟨opname, some (InstrArg.num n), none⟩

/-- The predicate of the constant-table linear scan:
`type(v) is type(value) and v == value`. -/
def const_matches (value v : PyVal) : Bool :=
  v.pyType == value.pyType && pyEq v value

/-- `PyCodegen._create_load_const`: linear-scan `co_consts` for an entry of
the same runtime type and equal value; reuse its index, else append the
value at the next index.  Returns the emitted `LOAD_CONST` instruction and
the updated constant table. -/
def create_load_const_unchecked (co_consts : List PyVal) (value : PyVal) :
    Instruction × List PyVal :=
  match co_consts.findIdx? (const_matches value) with
  | some i => (⟨"LOAD_CONST", some (InstrArg.num i), some value⟩, co_consts)
  | none =>
      (⟨"LOAD_CONST", some (InstrArg.num co_consts.length), some value⟩,
        co_consts ++ [value])

/-- `PyCodegen.create_load_const`: the checked constant-load path; the
`is_safe_constant` assertion failing is a fatal error (`none`). -/
def create_load_const (co_consts : List PyVal) (value : PyVal) :
    Option (Instruction × List PyVal) :=
  if is_safe_constant value then some (create_load_const_unchecked co_consts value)
  else none

/-- `PyCodegen.rot_n`: emit the instructions rotating the top `n` stack
values.  `py38` models `sys.version_info >= (3, 8)`.  The fallback path
loads the `rot_n_helper(n)` callable through `_create_load_const`, which can
grow the constant table, so the updated table is returned alongside. -/
def rot_n (co_consts : List PyVal) (py38 : Bool) (n : Nat) :
    List Instruction × List PyVal :=
  if n == 0 || n == 1 then ([], co_consts)
  else if n == 2 then ([instr0 "ROT_TWO"], co_consts)
  else if n == 3 then ([instr0 "ROT_THREE"], co_consts)
  else if n == 4 && py38 then ([instr0 "ROT_FOUR"], co_consts)
  else
    let lc := create_load_const_unchecked co_consts (PyVal.rotHelper n)
    ([instrN "BUILD_TUPLE" n, lc.1, instr0 "ROT_TWO",
      instrN "CALL_FUNCTION_EX" 0, instrN "UNPACK_SEQUENCE" n], lc.2)

/-- `PyCodegen.create_load_attr`: append the attribute name to `co_names`
when it is missing, then emit
`create_instruction("LOAD_ATTR", self.code_options["co_names"], name)` --
note the source passes the whole (updated) name table as the argument, not
the index of the name.  Returns the instruction and the updated table. -/
def create_load_attr (co_names : List String) (name : String) :
    Instruction × List String :=
  let co' := if name ∈ co_names then co_names else co_names ++ [name]
  (⟨"LOAD_ATTR", some (InstrArg.names co'), some (PyVal.str name)⟩, co')

/-- `PyCodegen.create_load_attrs`: split the dotted path on "." and emit one
attribute load per segment, threading the name table through. -/
def create_load_attrs (co_names : List String) (names : String) :
    List Instruction × List String :=
  (names.splitOn ".").foldl
    (fun acc part =>
      let r := create_load_attr acc.2 part
      (acc.1 ++ [r.1], r.2))
    ([], co_names)

/-- A `Source` descriptor: knows how to reconstruct itself as an instruction
sequence (`value.reconstruct(self)` is opaque to the emitter, modelled as a
stored list). -/
structure Source where
  recon : List Instruction
deriving DecidableEq

/-- The specializations of `VariableTracker` the emitter's decision chain
distinguishes: a known python constant (with its value), a tensor-valued
variable, a module-valued variable (with its dotted module key), and the
generic case carrying the result of `value.reconstruct` (`none` models a
`NotImplementedError`). -/
inductive VTKind
  | constant (v : PyVal)
  | tensor
  | nnModule (module_key : String)
  | generic (recon : Option (List Instruction))
deriving DecidableEq

/-- A symbolic value handed to the emitter.  `vid` models object identity
(`is` and dict-key lookups); `guards` is the value's guard set. -/
structure VariableTracker where
  vid : Nat
  source : Option Source
  guards : List Nat
  kind : VTKind
deriving DecidableEq

/-- The mutable state of a `PyCodegen` instance together with the pieces of
the enclosing translation context it reads and writes: the code object
metadata tables, the accumulated guard set, and (modelled from the spec,
since `symbolic_convert` is not in the snapshot) the fresh-variable counter
behind `tx.new_var`. -/
structure CgState where
  top_of_stack : Option VariableTracker
  tempvars : List (VariableTracker × Option String)
  output : List Instruction
  graph_outputs : List VariableTracker
  uses : List VariableTracker
  guards : List Nat
  co_consts : List PyVal
  co_names : List String
  co_varnames : List String
  cell_and_freevars : List String
  graph_output_var : String
  root : PyVal
  var_counter : Nat

/-- Dictionary lookup `self.tempvars.get(value)`: `none` when the key is
absent, `some v` (with `v : Option String`) when present. -/
def lookup_tempvar (tvs : List (VariableTracker × Option String))
    (v : VariableTracker) : Option (Option String) :=
  (tvs.find? (fun p => p.1 == v)).map Prod.snd

/-- Dictionary store `self.tempvars[value] = var`. -/
def set_tempvar : List (VariableTracker × Option String) → VariableTracker →
    String → List (VariableTracker × Option String)
  | [], v, s => [(v, some s)]
  | p :: rest, v, s =>
      if p.1 = v then (v, some s) :: rest else p :: set_tempvar rest v s

/-- `PyCodegen.create_load`: cell/free variables load with `LOAD_DEREF`;
otherwise the name must be a local (`LOAD_FAST`), a missing name being a
fatal assertion. -/
def create_load (st : CgState) (name : String) : Option Instruction :=
  if name ∈ st.cell_and_freevars then
    some ⟨"LOAD_DEREF", some (InstrArg.num (st.cell_and_freevars.indexOf name)),
      some (PyVal.str name)⟩
  else if name ∈ st.co_varnames then
    some ⟨"LOAD_FAST", some (InstrArg.num (st.co_varnames.indexOf name)),
      some (PyVal.str name)⟩
  else none

/-- `PyCodegen.create_store`: mirror of `create_load` with the store
opcodes. -/
def create_store (st : CgState) (name : String) : Option Instruction :=
  if name ∈ st.cell_and_freevars then
    some ⟨"STORE_DEREF", some (InstrArg.num (st.cell_and_freevars.indexOf name)),
      some (PyVal.str name)⟩
  else if name ∈ st.co_varnames then
    some ⟨"STORE_FAST", some (InstrArg.num (st.co_varnames.indexOf name)),
      some (PyVal.str name)⟩
  else none

/-- Modelled from the spec: `tx.new_var()` (source not in the snapshot)
returns a fresh local-variable name registered in `co_varnames`. -/
def new_var (st : CgState) : String × CgState :=
  let v := "tmp_" ++ toString st.var_counter
  (v, { st with
        var_counter := st.var_counter + 1
        co_varnames := st.co_varnames ++ [v] })

/-- `PyCodegen.add_cache`: allocate a fresh temporary, record it in
`tempvars`, and emit `DUP_TOP` plus a store into it. -/
def add_cache (st : CgState) (value : VariableTracker) : Option CgState :=
  let r := new_var st
  let st1 := { r.2 with tempvars := set_tempvar r.2.tempvars value r.1 }
  match create_store st1 r.1 with
  | none => none
  | some stInstr =>
      some { st1 with output := st1.output ++ [instr0 "DUP_TOP", stInstr] }

/-- The `value.reconstruct(self)` call of the generic branch.  Only the
generic tracker kind carries a reconstruction; on the other kinds the base
implementation raises `NotImplementedError` (the dedicated kinds are handled
by earlier branches and never reach this call in the source). -/
def vt_recon : VariableTracker → Option (List Instruction)
  | ⟨_, _, _, VTKind.generic r⟩ => r
  | _ => none

/-- The final `else` branch of `PyCodegen.__call__`: count the use, splice
in the value's own reconstruction (a failure is fatal), and cache the result
in a temporary when the value was marked for caching. -/
def reconstruct_generic (st0 : CgState) (value : VariableTracker)
    (allow_cache : Bool) : Option CgState :=
  let st := { st0 with uses := st0.uses ++ [value] }
  match vt_recon value with
  | none => none
  | some l =>
      let st1 := { st with output := st.output ++ l }
      if allow_cache && (lookup_tempvar st1.tempvars value).isSome then
        add_cache st1 value
      else some st1

/-- `PyCodegen.__call__` on a `VariableTracker` argument: the ordered
decision chain.  Note that the first two branches return early, before the
final `self.top_of_stack = value` assignment. -/
def call_vt (st0 : CgState) (value : VariableTracker) (allow_cache : Bool) :
    Option CgState :=
  if st0.top_of_stack = some value then
    some { st0 with output := st0.output ++ [instr0 "DUP_TOP"] }
  else if allow_cache && ((lookup_tempvar st0.tempvars value).join).isSome then
    match (lookup_tempvar st0.tempvars value).join with
    | none => none
    | some var =>
        match create_load st0 var with
        | none => none
        | some i => some { st0 with output := st0.output ++ [i] }
  else
    let st := { st0 with guards := st0.guards ++ value.guards }
    let body : Option CgState :=
      match value.source with
      | some s => some { st with output := st.output ++ s.recon }
      | none =>
        match value.kind with
        | VTKind.constant v =>
            if is_safe_constant v then
              let r := create_load_const_unchecked st.co_consts v
              some { st with output := st.output ++ [r.1], co_consts := r.2 }
            else reconstruct_generic st value allow_cache
        | VTKind.tensor =>
            let gouts := if value ∈ st.graph_outputs then st.graph_outputs
              else st.graph_outputs ++ [value]
            let idx := gouts.indexOf value
            match create_load st st.graph_output_var with
            | none => none
            | some ld =>
                let r := create_load_const_unchecked st.co_consts
                  (PyVal.int idx)
                some { st with
                  graph_outputs := gouts
                  output := st.output ++ [ld, r.1, instr0 "BINARY_SUBSCR"]
                  co_consts := r.2 }
        | VTKind.nnModule key =>
            match key.splitOn "." with
            | [] => none
            | p0 :: rest =>
                let step := fun (s : CgState) (part : String) =>
                  let r := create_load_attr s.co_names part
                  { s with output := s.output ++ [r.1], co_names := r.2 }
                if p0 ∈ st.co_varnames then
                  match create_load st p0 with
                  | none => none
                  | some fi =>
                      some (rest.foldl step
                        { st with output := st.output ++ [fi] })
                else
                  let r := create_load_const_unchecked st.co_consts st.root
                  some ((p0 :: rest).foldl step
                    { st with output := st.output ++ [r.1], co_consts := r.2 })
        | VTKind.generic _ => reconstruct_generic st value allow_cache
    body.map (fun st' => { st' with top_of_stack := some value })

/-- `PyCodegen.__call__` itself: a `Source` argument delegates to its own
reconstruction and clears the cached top-of-stack value. -/
def call (st : CgState) (value : Source ⊕ VariableTracker)
    (allow_cache : Bool) : Option CgState :=
  match value with
  | Sum.inl s =>
      some { st with output := st.output ++ s.recon, top_of_stack := none }
  | Sum.inr v => call_vt st v allow_cache

/-- Concrete tracker used to exercise the temporary-variable branch of
`call_vt`. -/
def vtX : VariableTracker := ⟨0, none, [], VTKind.generic (some [])⟩

/-- Concrete emitter state whose `tempvars` already holds `vtX` in local
`tmp_0`, with nothing cached on top of the stack. -/
def cgX : CgState :=
  { top_of_stack := none
    tempvars := [(vtX, some "tmp_0")]
    output := []
    graph_outputs := []
    uses := []
    guards := []
    co_consts := []
    co_names := []
    co_varnames := ["tmp_0"]
    cell_and_freevars := []
    graph_output_var := "gout"
    root := PyVal.obj 0
    var_counter := 1 }

end Codegen

namespace Ir

/-- Whether a `Layout` is the immutable `FixedLayout` subclass or the
changeable `FlexibleLayout` subclass. -/
inductive LayoutKind
  | fixed
  | flexible
deriving DecidableEq, Repr

/-- A tensor layout: device, element type, symbolic sizes and strides and an
offset.  Sizes/strides are modelled as naturals and devices/dtypes as
strings, which is all the realization path inspects. -/
structure Layout where
  device : String
  dtype : String
  size : List Nat
  stride : List Nat
  offset : Int
  kind : LayoutKind
deriving DecidableEq, Repr

/-- `FlexibleLayout.default_strides`: row-major strides.  The source builds
`reversed_strides` starting from `[1]`, appending `size * last` for each
size of `sizes[1:]` taken in reverse, and returns the reversed list; folding
with cons produces that reversed result directly. -/
def default_strides (sizes : List Nat) : List Nat :=
  match sizes with
  | [] => []
  | _ :: rest => rest.reverse.foldl (fun acc size => size * acc.headD 1 :: acc) [1]

/-- The `FlexibleLayout` constructor: default strides, zero offset. -/
def flexible_layout (device dtype : String) (size : List Nat) : Layout :=
  ⟨device, dtype, size, default_strides size, 0, LayoutKind.flexible⟩

/-- An unrealized loop body: `UnrealizedBuffer` (a typed non-reducing loop)
or `Reduction` (with a reduction domain and kind), as distinguished by
`StorageBox.realize`'s `isinstance` assertion. -/
inductive LoopsData
  | unrealized (device dtype : String) (ranges : List Nat)
  | reduction (device dtype : String) (ranges reduction_ranges : List Nat)
      (reduction_kind : String)
deriving DecidableEq, Repr

def LoopsData.get_device : LoopsData → String
  | .unrealized d _ _ => d
  | .reduction d _ _ _ _ => d

def LoopsData.get_dtype : LoopsData → String
  | .unrealized _ t _ => t
  | .reduction _ t _ _ _ => t

/-- Both loop kinds report their iteration domain `ranges` as `get_size`. -/
def LoopsData.get_size : LoopsData → List Nat
  | .unrealized _ _ r => r
  | .reduction _ _ r _ _ => r

/-- `ComputedBuffer`: a named, laid-out buffer whose contents are defined by
a loop body. -/
structure ComputedBuffer where
  name : String
  layout : Layout
  data : LoopsData
deriving DecidableEq, Repr

/-- The node a `StorageBox` currently wraps: an unrealized loop/reduction, a
computed buffer, or any other IR node kind (a view, constant, input buffer,
...), which `realize` rejects. -/
inductive StorageData
  | loops (l : LoopsData)
  | computed (buf : ComputedBuffer)
  | otherNode
deriving DecidableEq, Repr

/-- The rebindable storage handle. -/
structure StorageBox where
  data : StorageData
deriving DecidableEq, Repr

/-- Modelled from the spec: the external compute-graph registry
(`virtualized.graph`, source not in the snapshot).  `register_buffer(node)`
returns a fresh unique name and records the registration; `registered`
lists the handed-out names in order. -/
structure GraphState where
  registered : List String
deriving DecidableEq, Repr

/-- Modelled from the spec: `graph.register_buffer` hands out a fresh unique
name ("buf" followed by a running counter) and records it. -/
def register_buffer (g : GraphState) : String × GraphState :=
  let nm := "buf" ++ toString g.registered.length
  (nm, ⟨g.registered ++ [nm]⟩)

/-- `StorageBox.realize`: an already-computed buffer returns its name
unchanged; an unrealized loop/reduction is wrapped into a computed buffer
with a flexible layout built from its device/dtype/size and registered with
the graph; any other wrapped kind is a fatal `isinstance` assertion
(`none`).  Returns the name plus the updated box and registry. -/
def StorageBox.realize (box : StorageBox) (g : GraphState) :
    Option (String × StorageBox × GraphState) :=
  match box.data with
  | StorageData.computed buf => some (buf.name, box, g)
  | StorageData.loops l =>
      let layout := flexible_layout l.get_device l.get_dtype l.get_size
      let r := register_buffer g
      some (r.1, ⟨StorageData.computed ⟨r.1, layout, l⟩⟩, r.2)
  | StorageData.otherNode => none

end Ir

namespace Sched

/-- A dependency (`torchinductor.dependencies`, source not in the snapshot;
contract from the spec): it names a buffer and, except for the
distinguished whole-buffer `StarDep`, carries an access pattern (abstracted
to a numeric tag). -/
inductive Dep
  | star (buf : String)
  | mem (buf : String) (pat : Nat)
deriving DecidableEq, Repr

/-- The buffer name a dependency refers to (`dep.name`). -/
def Dep.name : Dep → String
  | .star b => b
  | .mem b _ => b

/-- The interface of an entry of `SchedulerNode.users` as read by
`can_remove_buffer`: both `SchedulerNode` and `OutputNode` expose an
`unmet_dependencies` set and `is_reduction()`.  The Python set is modelled
by its iteration order, a list of pairwise-distinct dependencies (`len` is
the length, `next(iter(s))` the head). -/
structure UserNode where
  unmet_dependencies : List Dep
  is_reduction : Bool
deriving DecidableEq

/-- The projection of a `SchedulerNode` that `can_remove_buffer` inspects:
its own reduction flag, its computed consumer list, and its write set
(`read_writes.writes`). -/
structure ElisionNode where
  is_reduction : Bool
  users : List UserNode
  writes : Finset Dep
deriving DecidableEq

/-- `SchedulerNode.can_remove_buffer`: true when the node is a reduction
with exactly one consumer whose single remaining unmet dependency is one of
this node's writes and which is not itself a reduction.  `next(iter(s))` on
the one-element set is modelled by the (unique) head of `Finset.toList`. -/
def can_remove_buffer (n : ElisionNode) : Bool :=
  match n.users with
  | [user] =>
      if n.is_reduction && user.unmet_dependencies.length == 1 then
        match user.unmet_dependencies with
        | [dep] => !user.is_reduction && decide (dep ∈ n.writes)
        | _ => false
      else false
  | _ => false

/-- The projection of a `SchedulerNode` that `Scheduler.compute_users`
reads: its buffer name and the dependencies it reads. -/
structure CNode where
  name : String
  reads : List Dep
deriving DecidableEq, Repr

/-- An entry of a consumer list: the synthetic `OutputNode` (holding its
whole-buffer dependency) or an ordinary node. -/
inductive NUser
  | output (d : Dep)
  | node (n : CNode)
deriving DecidableEq, Repr

/-- The `name_to_users` map.  `some l` is a list entry (the `defaultdict`
default being `some []`); `none` is an entry cleared to `None` after its
producer was processed. -/
def UsersMap := String → Option (List NUser)

/-- Pointwise map update. -/
def upd (m : UsersMap) (k : String) (v : Option (List NUser)) : UsersMap :=
  fun x => if x = k then v else m x

/-- `name_to_users[k].append(u)`: appending to a cleared (`None`) entry is a
fatal error, modelled as `none`. -/
def append_user (m : UsersMap) (k : String) (u : NUser) : Option UsersMap :=
  match m k with
  | none => none
  | some l => some (upd m k (some (l ++ [u])))

/-- Register `u` as a consumer of every buffer in `reads`. -/
def append_reads : UsersMap → List Dep → NUser → Option UsersMap
  | m, [], _ => some m
  | m, d :: rest, u =>
      match append_user m d.name u with
      | none => none
      | some m' => append_reads m' rest u

/-- The reverse walk of `compute_users`: assign each processed node the
consumer list accumulated for its name, clear that entry, then register the
node on the consumer list of everything it reads.  Returns the (node,
assigned users) pairs in processing order plus the final map. -/
def users_walk : List CNode → UsersMap →
    Option (List (CNode × Option (List NUser)) × UsersMap)
  | [], m => some ([], m)
  | n :: rest, m =>
      match append_reads (upd m n.name none) n.reads (NUser.node n) with
      | none => none
      | some m2 =>
          match users_walk rest m2 with
          | none => none
          | some r => some ((n, m n.name) :: r.1, r.2)

/-- The `defaultdict(list)` starting map. -/
def init_users : UsersMap := fun _ => some []

/-- Pre-seed each declared graph output's consumer list with
`OutputNode(StarDep(name))`.  No entry has been cleared yet, so the
defaultdict lookup is total here (`getD []`). -/
def seed_outputs : List String → UsersMap → UsersMap
  | [], m => m
  | o :: rest, m =>
      seed_outputs rest
        (upd m o (some ((m o).getD [] ++ [NUser.output (Dep.star o)])))

/-- `Scheduler.compute_users`: seed the outputs, walk the nodes in reverse,
and return the assignments back in original node order. -/
def compute_users (nodes : List CNode) (outputs : List String) :
    Option (List (CNode × Option (List NUser))) :=
  match users_walk nodes.reverse (seed_outputs outputs init_users) with
  | none => none
  | some r => some r.1.reverse

/-- Python truthiness of an assigned `users` value (`if node.users:`):
`None` and `[]` are falsy. -/
def truthy : Option (List NUser) → Bool
  | none => false
  | some l => !l.isEmpty

/-- The active node list after dead-code removal (`updated_nodes`). -/
def updated_nodes (asg : List (CNode × Option (List NUser))) : List CNode :=
  (asg.filter (fun p => truthy p.2)).map Prod.fst

/-- The names the pass adds to `graph.removed_buffers`. -/
def removed_names (asg : List (CNode × Option (List NUser))) : List String :=
  (asg.filter (fun p => !truthy p.2)).map (fun p => p.1.name)

/-- The projection of a `SchedulerNode` that queueing, the barrier and group
iteration manipulate: its buffer name, its read dependencies
(`read_writes.reads`, the initial `unmet_dependencies`), its fusion-group
key (the pair of `group_fn` values, abstracted to an opaque key), and its
reduction flag. -/
structure GNode where
  name : String
  reads : Finset Dep
  group : Nat
  is_reduction : Bool
deriving DecidableEq

/-- The scheduler state.  `runnable` collapses the per-group
`runable_nodes` pools together with the `runable_reduction_groups` /
`runable_pointwise_groups` tallies (a group key is outstanding in one of
the two counter dicts exactly when a node of that group and tier sits in
the pool, as the three structures are pushed and popped together).
`blocked` models `BlockedNodes`: one single-use slot per node carrying its
unmet-dependency set, retrievable through any of its dependency keys
(`pop_name`), exactly once.  `done` records the nodes run so far (the
source's `run_count` increments once per `SchedulerNode.run`; `done` makes
"runs every node exactly once" stateable). -/
structure SState where
  available : Finset String
  pending : Finset String
  runnable : List GNode
  blocked : List (GNode × Finset Dep)
  done : List GNode
  run_count : Nat

/-- `SchedulerNode.prune_deps`: drop every unmet dependency whose buffer
name is already available. -/
def prune_deps (avail : Finset String) (unmet : Finset Dep) : Finset Dep :=
  unmet.filter (fun d => d.name ∉ avail)

/-- `Scheduler.enqueue` on a single node whose current unmet-dependency set
is `unmet`: blocked when any dependency is unmet, else runnable (filed
under its group key and tallied in its tier's counter). -/
def enqueue1 (st : SState) (n : GNode) (unmet : Finset Dep) : SState :=
  if unmet = ∅ then { st with runnable := st.runnable ++ [n] }
  else { st with blocked := st.blocked ++ [(n, unmet)] }

/-- `Scheduler.__init__`: seed the available names from the graph inputs,
prune each node's reads against them (`SchedulerNode.__init__` calls
`prune_deps` with exactly this available set), and enqueue every node. -/
def init_state (inputs : Finset String) (nodes : List GNode) : SState :=
  nodes.foldl (fun st n => enqueue1 st n (prune_deps inputs n.reads))
    ⟨inputs, ∅, [], [], [], 0⟩

/-- `SchedulerNode.run`: bump the run counter and add the node's buffer
name to the pending set (the store emission itself goes to the external
ops collaborator and touches no scheduler state). -/
def run_node (st : SState) (n : GNode) : SState :=
  { st with
    run_count := st.run_count + 1
    pending := insert n.name st.pending
    done := st.done ++ [n] }

/-- Whether a blocked entry is popped by the barrier: `pop_name` retrieves
it through any unmet dependency whose buffer name just became pending. -/
def hit_pending (pending : Finset String) (u : Finset Dep) : Bool :=
  decide (u.filter (fun d => d.name ∈ pending)).Nonempty

/-- `Scheduler.barrier`: promote all pending names to available, pop every
still-valid blocked node waiting on one of them, re-prune its
unmet-dependency set against the enlarged available set, clear the pending
set and re-enqueue the popped nodes. -/
def barrier (st : SState) : SState :=
  let avail := st.available ∪ st.pending
  let moved := st.blocked.filter (fun p => hit_pending st.pending p.2)
  let kept := st.blocked.filter (fun p => !hit_pending st.pending p.2)
  let st1 : SState :=
    { st with
      available := avail
      pending := ∅
      blocked := kept }
  moved.foldl (fun s p => enqueue1 s p.1 (prune_deps avail p.2)) st1

/-- `Scheduler.pop_group` followed by running each yielded node, for one
group key: drain every runnable node filed under the key (removing the key
from both tier counters) and run each.  The trailing fusable-dependency
drain of `pop_group` is a no-op here because the modelled driver never
publishes fusable writes (`fusable_deps` stays empty, and
`pop_fusable(∅, g)` returns nothing). -/
def run_group (st : SState) (g : Nat) : SState :=
  let popped := st.runnable.filter (fun n => n.group == g)
  let rest := st.runnable.filter (fun n => !(n.group == g))
  popped.foldl run_node { st with runnable := rest }

/-- One yield of `Scheduler.iter_runable_groups`: a group key with an
outstanding runnable reduction when one exists (reductions are preferred),
otherwise a group key with an outstanding runnable pointwise node. -/
def pick_group (st : SState) : Nat :=
  match st.runnable.find? (fun n => n.is_reduction) with
  | some r => r.group
  | none =>
      match st.runnable with
      | [] => 0
      | n :: _ => n.group

/-- Modelled from the spec: one round of the scheduling protocol (the
driver that consumes `iter_runable_groups` lives outside the snapshot) --
take the yielded group key, drain and run that group, then advance the
epoch with a barrier. -/
def round (st : SState) : SState := barrier (run_group st (pick_group st))

/-- Modelled from the spec: drive group iteration to exhaustion -- keep
taking rounds while any runnable group is outstanding (the generator's
`while` over the two group-counter dicts).  `fuel` bounds the rounds; every
round runs at least one node, so `nodes.length` rounds always suffice. -/
def drive : Nat → SState → SState
  | 0, st => st
  | Nat.succ fuel, st =>
      if st.runnable = [] then st else drive fuel (round st)

/-- The scheduler states reachable from initialization by draining groups
(any key) and taking barriers. -/
inductive Reachable (inputs : Finset String) (nodes : List GNode) :
    SState → Prop
  | init : Reachable inputs nodes (init_state inputs nodes)
  | step_run (st : SState) (g : Nat) :
      Reachable inputs nodes st → Reachable inputs nodes (run_group st g)
  | step_barrier (st : SState) :
      Reachable inputs nodes st → Reachable inputs nodes (barrier st)

/-- The scheduler's state invariant: the retained nodes are partitioned
among the runnable pool, the blocked index and the already-run list; every
runnable node's reads are available; every blocked entry holds a nonempty
unmet subset of its node's reads, none of it available, with the discarded
reads available; every run node's name is available or pending; the run
counter counts the run nodes; and the graph inputs stay available. -/
structure SInv (inputs : Finset String) (nodes : List GNode)
    (st : SState) : Prop where
  perm : (st.runnable : Multiset GNode) + ↑(st.blocked.map Prod.fst) +
    ↑st.done = ↑nodes
  runnable_ready : ∀ n ∈ st.runnable, ∀ d ∈ n.reads,
    Dep.name d ∈ st.available
  blocked_sub : ∀ p ∈ st.blocked, p.2 ⊆ p.1.reads
  blocked_ne : ∀ p ∈ st.blocked, p.2 ≠ ∅
  blocked_fresh : ∀ p ∈ st.blocked, ∀ d ∈ p.2, Dep.name d ∉ st.available
  blocked_rest : ∀ p ∈ st.blocked, ∀ d ∈ p.1.reads, d ∉ p.2 →
    Dep.name d ∈ st.available
  done_names : ∀ n ∈ st.done, GNode.name n ∈ st.available ∪ st.pending
  count_eq : st.run_count = st.done.length
  inputs_sub : inputs ⊆ st.available

end Sched

namespace CodegenThm

open Codegen

theorem pyEq_refl_of_safe (v : PyVal) (h : is_safe_constant v = true) :
    pyEq v v = true := by
  cases v <;> simp_all [is_safe_constant, pyEq]

theorem const_matches_self (v : PyVal) (h : is_safe_constant v = true) :
    const_matches v v = true := by
  simp [const_matches, pyEq_refl_of_safe v h]

/-- If the scan finds no match, loading appends and uses the next index. -/
theorem load_const_append (co : List PyVal) (v : PyVal)
    (h : co.findIdx? (const_matches v) = none) :
    create_load_const_unchecked co v =
      (⟨"LOAD_CONST", some (InstrArg.num co.length), some v⟩, co ++ [v]) := by
  simp [create_load_const_unchecked, h]

/-- C7 -- Constant-pool dedup: for every value accepted by the checked
constant-load path, loading it twice grows the constant table by at most one
entry and both emitted `LOAD_CONST` instructions carry the identical index;
the index is decided by a linear scan matching runtime type and value
equality, with a new entry appended at the next index only when no entry
matches, and the surviving table extends the original (no entry is ever
reassigned an index). -/
theorem c7_load_const_dedup (co : List PyVal) (v : PyVal)
    (hsafe : is_safe_constant v = true) :
    ∃ (i : Nat) (co1 : List PyVal),
      create_load_const co v =
        some (⟨"LOAD_CONST", some (InstrArg.num i), some v⟩, co1) ∧
      create_load_const co1 v =
        some (⟨"LOAD_CONST", some (InstrArg.num i), some v⟩, co1) ∧
      co1.length ≤ co.length + 1 ∧
      (co1 = co ∨ (co1 = co ++ [v] ∧ i = co.length ∧
        ∀ w ∈ co, const_matches v w = false)) := by
  unfold create_load_const
  rw [hsafe]
  simp only [if_true]
  rcases hscan : co.findIdx? (const_matches v) with _ | i
  · -- no existing entry: append at index `co.length`
    refine ⟨co.length, co ++ [v], ?_, ?_, ?_, ?_⟩
    · simp [create_load_const_unchecked, hscan]
    · have hfind : (co ++ [v]).findIdx? (const_matches v) = some co.length := by
        rw [List.findIdx?_append]
        rw [hscan]
        simp [List.findIdx?, const_matches_self v hsafe]
      simp [create_load_const_unchecked, hfind]
    · simp
    · refine Or.inr ⟨rfl, rfl, ?_⟩
      intro w hw
      by_contra hws
      have : ∃ j, co.findIdx? (const_matches v) = some j := by
        have : (co.findIdx? (const_matches v)).isSome = true := by
          rw [List.findIdx?_isSome]
          exact List.any_eq_true.2 ⟨w, hw, by simpa using hws⟩
        exact Option.isSome_iff_exists.1 this
      rcases this with ⟨j, hj⟩
      rw [hscan] at hj
      exact Option.noConfusion hj
  · -- found at index `i`: table unchanged, second lookup finds the same entry
    refine ⟨i, co, ?_, ?_, ?_, Or.inl rfl⟩
    · simp [create_load_const_unchecked, hscan]
    · simp [create_load_const_unchecked, hscan]
    · omega

/-- Witness for C7 at a concrete input: loading the integer constant 7 twice
into an initially empty table. -/
theorem c7_load_const_dedup_witness :
    ∃ (i : Nat) (co1 : List PyVal),
      create_load_const [] (PyVal.int 7) =
        some (⟨"LOAD_CONST", some (InstrArg.num i), some (PyVal.int 7)⟩, co1) ∧
      create_load_const co1 (PyVal.int 7) =
        some (⟨"LOAD_CONST", some (InstrArg.num i), some (PyVal.int 7)⟩, co1) ∧
      co1.length ≤ ([] : List PyVal).length + 1 ∧
      (co1 = [] ∨ (co1 = [] ++ [PyVal.int 7] ∧ i = ([] : List PyVal).length ∧
        ∀ w ∈ ([] : List PyVal), const_matches (PyVal.int 7) w = false)) :=
  c7_load_const_dedup [] (PyVal.int 7) rfl

/-- C6 -- exact stack-rotation policy of `rot_n`: nothing for n ∈ {0, 1};
`ROT_TWO` for n = 2; `ROT_THREE` for n = 3; `ROT_FOUR` for n = 4 on a host
of version at least 3.8; and for n > 4, or n = 4 on an older host, the
five-instruction fallback `BUILD_TUPLE n`, `LOAD_CONST` of the rotation
helper, `ROT_TWO`, `CALL_FUNCTION_EX 0`, `UNPACK_SEQUENCE n`. -/
theorem c6_rot_n_policy (co : List PyVal) (py38 : Bool) :
    (rot_n co py38 0).1 = [] ∧
    (rot_n co py38 1).1 = [] ∧
    (rot_n co py38 2).1 = [instr0 "ROT_TWO"] ∧
    (rot_n co py38 3).1 = [instr0 "ROT_THREE"] ∧
    (rot_n co true 4).1 = [instr0 "ROT_FOUR"] ∧
    (rot_n co false 4).1 =
      [instrN "BUILD_TUPLE" 4,
       (create_load_const_unchecked co (PyVal.rotHelper 4)).1,
       instr0 "ROT_TWO", instrN "CALL_FUNCTION_EX" 0,
       instrN "UNPACK_SEQUENCE" 4] ∧
    (∀ n, 4 < n → (rot_n co py38 n).1 =
      [instrN "BUILD_TUPLE" n,
       (create_load_const_unchecked co (PyVal.rotHelper n)).1,
       instr0 "ROT_TWO", instrN "CALL_FUNCTION_EX" 0,
       instrN "UNPACK_SEQUENCE" n]) := by
  refine ⟨rfl, rfl, rfl, rfl, rfl, rfl, ?_⟩
  intro n hn
  have h0 : (n == 0 || n == 1) = false := by
    simp only [Bool.or_eq_false_iff, beq_eq_false_iff_ne]
    omega
  have h2 : (n == 2) = false := by simp only [beq_eq_false_iff_ne]; omega
  have h3 : (n == 3) = false := by simp only [beq_eq_false_iff_ne]; omega
  have h4 : (n == 4) = false := by simp only [beq_eq_false_iff_ne]; omega
  simp [rot_n, h0, h2, h3, h4]

/-- C8 -- attribute load: the source appends a missing attribute name to the
name table, but then passes the entire (updated) `co_names` table as the
`LOAD_ATTR` instruction argument instead of the numeric index of the name:
for the name table `[]` and attribute `"foo"` the emitted argument is the
table `["foo"]`, and in general the argument is never a numeric index. -/
theorem c8_load_attr_argument_bug :
    (create_load_attr [] "foo").2 = ["foo"] ∧
    (create_load_attr [] "foo").1 =
      ⟨"LOAD_ATTR", some (InstrArg.names ["foo"]), some (PyVal.str "foo")⟩ ∧
    (∀ i : Nat, (create_load_attr [] "foo").1.arg ≠ some (InstrArg.num i)) ∧
    (∀ (co : List String) (name : String), ∃ tbl,
      (create_load_attr co name).1.arg = some (InstrArg.names tbl) ∧
      name ∈ tbl) := by
  refine ⟨by simp [create_load_attr], by simp [create_load_attr], ?_, ?_⟩
  · intro i h
    simp [create_load_attr] at h
  · intro co name
    by_cases hmem : name ∈ co
    · exact ⟨co, by simp [create_load_attr, hmem], hmem⟩
    · exact ⟨co ++ [name], by simp [create_load_attr, hmem], by simp⟩

/-- C9 -- stale top-of-stack cache: serving a value from an existing
temporary variable returns early without recording the value as the new
cached top-of-stack value.  On the concrete state `cgX` (which holds `vtX`
in temporary `tmp_0` and has an empty cache), the call succeeds but leaves
the cached top-of-stack value `none` instead of `some vtX`. -/
theorem c9_call_tempvar_stale_tos :
    (call_vt cgX vtX true).isSome = true ∧
    (call_vt cgX vtX true).map CgState.top_of_stack = some none ∧
    (call_vt cgX vtX true).map CgState.top_of_stack ≠ some (some vtX) := by
  refine ⟨rfl, rfl, ?_⟩
  intro h
  rw [show (call_vt cgX vtX true).map CgState.top_of_stack = some none from rfl]
    at h
  simp at h

end CodegenThm

namespace IrThm

open Ir

/-- C1 -- materialization: on a storage handle wrapping an unrealized
loop/reduction, the first `realize` builds a computed buffer with a flexible
layout derived from the node, registers exactly one fresh name with the
graph registry, and returns it; calling `realize` again on the realized
handle returns the identical name and leaves the registry untouched; and on
a handle wrapping any other node kind, `realize` is a fatal assertion. -/
theorem c1_realize_idempotent (box : StorageBox) (g : GraphState)
    (l : LoopsData) (hwrap : box.data = StorageData.loops l) :
    (∃ nm box' g',
      StorageBox.realize box g = some (nm, box', g') ∧
      g'.registered = g.registered ++ [nm] ∧
      box'.data = StorageData.computed
        ⟨nm, flexible_layout l.get_device l.get_dtype l.get_size, l⟩ ∧
      (flexible_layout l.get_device l.get_dtype l.get_size).kind =
        LayoutKind.flexible ∧
      StorageBox.realize box' g' = some (nm, box', g')) ∧
    (∀ (b : StorageBox) (g2 : GraphState), b.data = StorageData.otherNode →
      StorageBox.realize b g2 = none) := by
  constructor
  · cases box with
    | mk d =>
      cases hwrap
      exact ⟨"buf" ++ toString g.registered.length, _, _, rfl, rfl, rfl, rfl,
        rfl⟩
  · intro b g2 hb
    cases b with
    | mk d => cases hb; rfl

/-- Witness for C1 on a concrete unrealized pointwise loop and an empty
registry. -/
theorem c1_realize_idempotent_witness :
    (∃ nm box' g',
      StorageBox.realize ⟨StorageData.loops (LoopsData.unrealized "cpu" "float32" [2, 3])⟩
        ⟨[]⟩ = some (nm, box', g') ∧
      GraphState.registered g' = GraphState.registered ⟨[]⟩ ++ [nm] ∧
      box'.data = StorageData.computed
        ⟨nm, flexible_layout (LoopsData.unrealized "cpu" "float32" [2, 3]).get_device
          (LoopsData.unrealized "cpu" "float32" [2, 3]).get_dtype
          (LoopsData.unrealized "cpu" "float32" [2, 3]).get_size,
          LoopsData.unrealized "cpu" "float32" [2, 3]⟩ ∧
      (flexible_layout (LoopsData.unrealized "cpu" "float32" [2, 3]).get_device
        (LoopsData.unrealized "cpu" "float32" [2, 3]).get_dtype
        (LoopsData.unrealized "cpu" "float32" [2, 3]).get_size).kind =
        LayoutKind.flexible ∧
      StorageBox.realize box' g' = some (nm, box', g')) ∧
    (∀ (b : StorageBox) (g2 : GraphState), b.data = StorageData.otherNode →
      StorageBox.realize b g2 = none) :=
  c1_realize_idempotent ⟨StorageData.loops (LoopsData.unrealized "cpu" "float32" [2, 3])⟩
    ⟨[]⟩ (LoopsData.unrealized "cpu" "float32" [2, 3]) rfl

end IrThm

namespace SchedThm

open Sched

/-- C2 -- dead-consumer elision test: `can_remove_buffer` returns true
exactly when the node is a reduction with exactly one consumer, that
consumer has exactly one unmet dependency, that dependency is one of the
node's writes, and the consumer is not a reduction; in particular a sole
consumer with two or more unmet dependencies makes it false. -/
theorem c2_can_remove_buffer_iff (n : ElisionNode) :
    (can_remove_buffer n = true ↔
      ∃ user dep, n.users = [user] ∧ n.is_reduction = true ∧
        user.unmet_dependencies = [dep] ∧ dep ∈ n.writes ∧
        user.is_reduction = false) ∧
    (∀ user, n.users = [user] → 2 ≤ user.unmet_dependencies.length →
      can_remove_buffer n = false) := by
  obtain ⟨isred, users, writes⟩ := n
  rcases users with _ | ⟨user, rest⟩
  · constructor
    · constructor
      · intro h
        simp [can_remove_buffer] at h
      · rintro ⟨user, dep, h, -⟩
        simp at h
    · intro user h
      simp at h
  · rcases rest with _ | ⟨u2, rest2⟩
    · obtain ⟨unmet, ured⟩ := user
      rcases unmet with _ | ⟨dep, drest⟩
      · constructor
        · constructor
          · intro h
            simp [can_remove_buffer] at h
          · rintro ⟨user, dep, huser, -, hunmet, -⟩
            simp only [List.cons.injEq, and_true] at huser
            rw [← huser] at hunmet
            simp at hunmet
        · intro user huser hlen
          simp only [List.cons.injEq, and_true] at huser
          rw [← huser] at hlen
          simp at hlen
      · rcases drest with _ | ⟨d2, drest2⟩
        · constructor
          · constructor
            · intro h
              cases isred <;> cases ured <;>
                simp only [can_remove_buffer, List.length_cons,
                  List.length_nil, Bool.false_and, Bool.true_and,
                  Bool.not_true, Bool.not_false, Bool.false_and,
                  Bool.and_eq_true, decide_eq_true_eq] at h
              · exact absurd h (by simp)
              · exact absurd h (by simp)
              · exact ⟨⟨[dep], false⟩, dep, rfl, rfl, rfl, by simpa using h,
                  rfl⟩
              · exact absurd h (by simp)
            · rintro ⟨user, dep', huser, hred, hunmet, hw, hured⟩
              simp only [List.cons.injEq, and_true] at huser
              subst hred
              rw [← huser] at hunmet hured
              simp only at hunmet hured
              subst hured
              cases hunmet
              simp [can_remove_buffer, hw]
          · intro user huser hlen
            simp only [List.cons.injEq, and_true] at huser
            rw [← huser] at hlen
            simp at hlen
        · constructor
          · constructor
            · intro h
              cases isred <;>
                simp [can_remove_buffer] at h
            · rintro ⟨user, dep', huser, hred, hunmet, -, -⟩
              simp only [List.cons.injEq, and_true] at huser
              rw [← huser] at hunmet
              simp at hunmet
          · intro user huser hlen
            cases isred <;> simp [can_remove_buffer]
    · constructor
      · constructor
        · intro h
          simp [can_remove_buffer] at h
        · rintro ⟨user, dep, huser, -⟩
          simp at huser
      · intro user huser
        simp at huser

theorem upd_self (m : UsersMap) (k : String) (v : Option (List NUser)) :
    upd m k v k = v := by
  simp [upd]

theorem upd_other (m : UsersMap) (k : String) (v : Option (List NUser))
    (x : String) (h : x ≠ k) : upd m k v x = m x := by
  simp [upd, h]

/-- Appending a consumer for a read of a cleared name is fatal. -/
theorem append_reads_none (u : NUser) :
    ∀ (ds : List Dep) (m : UsersMap) (k : String), m k = none →
      k ∈ ds.map Dep.name → append_reads m ds u = none := by
  intro ds
  induction ds with
  | nil =>
      intro m k _ hmem
      simp at hmem
  | cons d rest ih =>
      intro m k hk hmem
      simp only [List.map_cons, List.mem_cons] at hmem
      by_cases hdk : d.name = k
      · have h1 : append_user m d.name u = none := by
          rw [append_user, hdk, hk]
        rw [append_reads, h1]
      · rcases hmu : m d.name with _ | l
        · have h1 : append_user m d.name u = none := by
            rw [append_user, hmu]
          rw [append_reads, h1]
        · have h1 : append_user m d.name u =
              some (upd m d.name (some (l ++ [u]))) := by
            rw [append_user, hmu]
          rw [append_reads, h1]
          have hk' : (upd m d.name (some (l ++ [u]))) k = none := by
            rw [upd_other _ _ _ _ (fun hkk => hdk hkk.symm)]
            exact hk
          rcases hmem with hmem | hmem
          · exact absurd hmem.symm hdk
          · exact ih _ k hk' hmem

/-- Registering reads leaves every name not read untouched. -/
theorem append_reads_preserve (u : NUser) :
    ∀ (ds : List Dep) (m m' : UsersMap) (k : String),
      append_reads m ds u = some m' → k ∉ ds.map Dep.name → m' k = m k := by
  intro ds
  induction ds with
  | nil =>
      intro m m' k h _
      rw [append_reads] at h
      cases h
      rfl
  | cons d rest ih =>
      intro m m' k h hmem
      simp only [List.map_cons, List.mem_cons, not_or] at hmem
      rcases hmu : m d.name with _ | l
      · have h1 : append_user m d.name u = none := by rw [append_user, hmu]
        rw [append_reads, h1] at h
        cases h
      · have h1 : append_user m d.name u =
            some (upd m d.name (some (l ++ [u]))) := by rw [append_user, hmu]
        rw [append_reads, h1] at h
        have := ih _ _ k h hmem.2
        rw [this, upd_other _ _ _ _ hmem.1]

/-- Registering reads only appends: membership in an entry is preserved. -/
theorem append_reads_mono (u : NUser) :
    ∀ (ds : List Dep) (m m' : UsersMap) (k : String) (l : List NUser)
      (x : NUser), append_reads m ds u = some m' → m k = some l → x ∈ l →
      ∃ l', m' k = some l' ∧ x ∈ l' := by
  intro ds
  induction ds with
  | nil =>
      intro m m' k l x h hk hx
      rw [append_reads] at h
      cases h
      exact ⟨l, hk, hx⟩
  | cons d rest ih =>
      intro m m' k l x h hk hx
      rcases hmu : m d.name with _ | l0
      · have h1 : append_user m d.name u = none := by rw [append_user, hmu]
        rw [append_reads, h1] at h
        cases h
      · have h1 : append_user m d.name u =
            some (upd m d.name (some (l0 ++ [u]))) := by rw [append_user, hmu]
        rw [append_reads, h1] at h
        by_cases hdk : k = d.name
        · have hl : l = l0 := by
            rw [hdk] at hk
            rw [hk] at hmu
            exact Option.some.inj hmu
          refine ih _ _ k (l0 ++ [u]) x h ?_ ?_
          · rw [hdk]
            exact upd_self _ _ _
          · exact List.mem_append_left _ (hl ▸ hx)
        · exact ih _ _ k l x h
            (by rw [upd_other _ _ _ _ hdk]; exact hk) hx

/-- Inversion of one step of the reverse walk. -/
theorem users_walk_cons_inv (n : CNode) (rest : List CNode) (m : UsersMap)
    (r : List (CNode × Option (List NUser)) × UsersMap)
    (h : users_walk (n :: rest) m = some r) :
    ∃ m2 r2,
      append_reads (upd m n.name none) n.reads (NUser.node n) = some m2 ∧
      users_walk rest m2 = some r2 ∧ r = ((n, m n.name) :: r2.1, r2.2) := by
  rw [users_walk] at h
  split at h
  · cases h
  · next m2 har =>
      split at h
      · cases h
      · next r2 hw =>
          cases h
          exact ⟨m2, r2, har, hw, rfl⟩

/-- A completed walk processed exactly the given nodes, in order. -/
theorem users_walk_fst :
    ∀ (L : List CNode) (m : UsersMap) r, users_walk L m = some r →
      r.1.map Prod.fst = L := by
  intro L
  induction L with
  | nil =>
      intro m r h
      rw [users_walk] at h
      cases h
      rfl
  | cons n rest ih =>
      intro m r h
      obtain ⟨m2, r2, -, hw, hr⟩ := users_walk_cons_inv n rest m r h
      subst hr
      simp only [List.map_cons]
      rw [ih m2 r2 hw]

/-- A walk that completes never had a node reading its own name. -/
theorem users_walk_no_self_read :
    ∀ (L : List CNode) (m : UsersMap) r, users_walk L m = some r →
      ∀ nd ∈ L, nd.name ∉ nd.reads.map Dep.name := by
  intro L
  induction L with
  | nil =>
      intro m r _ nd hnd
      simp at hnd
  | cons n rest ih =>
      intro m r h nd hnd
      obtain ⟨m2, r2, har, hw, -⟩ := users_walk_cons_inv n rest m r h
      rcases List.mem_cons.1 hnd with rfl | hnd
      · intro hmem
        rw [append_reads_none _ _ _ nd.name (upd_self _ _ _) hmem] at har
        cases har
      · exact ih m2 r2 hw nd hnd

/-- A node whose name no processed node reads and no other processed node
bears is assigned exactly the entry the map held for its name. -/
theorem users_walk_untouched :
    ∀ (L : List CNode) (m : UsersMap) r, users_walk L m = some r →
      ∀ nd ∈ L, ∀ v, m nd.name = some v →
      (∀ h ∈ L, h ≠ nd → h.name ≠ nd.name) →
      (∀ h ∈ L, nd.name ∉ h.reads.map Dep.name) →
      (nd, some v) ∈ r.1 := by
  intro L
  induction L with
  | nil =>
      intro m r _ nd hnd
      simp at hnd
  | cons n rest ih =>
      intro m r h nd hnd v hv hnames hreads
      obtain ⟨m2, r2, har, hw, hr⟩ := users_walk_cons_inv n rest m r h
      subst hr
      by_cases hn : n = nd
      · subst hn
        rw [hv]
        exact List.mem_cons_self _ _
      · have hne : n.name ≠ nd.name := hnames n (List.mem_cons_self _ _) hn
        have hnd' : nd ∈ rest := by
          rcases List.mem_cons.1 hnd with rfl | hnd'
          · exact absurd rfl hn
          · exact hnd'
        have h1 : (upd m n.name none) nd.name = some v := by
          rw [upd_other _ _ _ _ hne.symm]
          exact hv
        have h2 : m2 nd.name = some v := by
          rw [append_reads_preserve _ _ _ _ _ har
            (hreads n (List.mem_cons_self _ _))]
          exact h1
        exact List.mem_cons_of_mem _
          (ih m2 r2 hw nd hnd' v h2
            (fun b hb => hnames b (List.mem_cons_of_mem _ hb))
            (fun b hb => hreads b (List.mem_cons_of_mem _ hb)))

/-- A consumer present in a node's entry before the walk survives into the
node's assigned consumer list (other nodes' reads only append). -/
theorem users_walk_gains :
    ∀ (L : List CNode) (m : UsersMap) r, users_walk L m = some r →
      ∀ nd ∈ L, ∀ v (x : NUser), m nd.name = some v → x ∈ v →
      (∀ h ∈ L, h ≠ nd → h.name ≠ nd.name) →
      ∃ v', (nd, some v') ∈ r.1 ∧ x ∈ v' := by
  intro L
  induction L with
  | nil =>
      intro m r _ nd hnd
      simp at hnd
  | cons n rest ih =>
      intro m r h nd hnd v x hv hx hnames
      obtain ⟨m2, r2, har, hw, hr⟩ := users_walk_cons_inv n rest m r h
      subst hr
      by_cases hn : n = nd
      · subst hn
        rw [hv]
        exact ⟨v, List.mem_cons_self _ _, hx⟩
      · have hne : n.name ≠ nd.name := hnames n (List.mem_cons_self _ _) hn
        have hnd' : nd ∈ rest := by
          rcases List.mem_cons.1 hnd with rfl | hnd'
          · exact absurd rfl hn
          · exact hnd'
        have h1 : (upd m n.name none) nd.name = some v := by
          rw [upd_other _ _ _ _ hne.symm]
          exact hv
        obtain ⟨l2, hl2, hxl2⟩ :=
          append_reads_mono _ _ _ _ nd.name v x har h1 hx
        obtain ⟨v', hv', hxv'⟩ := ih m2 r2 hw nd hnd' l2 x hl2 hxl2
          (fun b hb => hnames b (List.mem_cons_of_mem _ hb))
        exact ⟨v', List.mem_cons_of_mem _ hv', hxv'⟩

theorem seed_outputs_isSome :
    ∀ (outs : List String) (m : UsersMap), (∀ k, (m k).isSome = true) →
      ∀ k, ((seed_outputs outs m) k).isSome = true := by
  intro outs
  induction outs with
  | nil =>
      intro m hm k
      exact hm k
  | cons o rest ih =>
      intro m hm k
      rw [seed_outputs]
      refine ih _ ?_ k
      intro k'
      by_cases h : k' = o
      · subst h
        rw [upd_self]
        rfl
      · rw [upd_other _ _ _ _ h]
        exact hm k'

theorem seed_outputs_not_mem :
    ∀ (outs : List String) (m : UsersMap) (k : String), k ∉ outs →
      seed_outputs outs m k = m k := by
  intro outs
  induction outs with
  | nil =>
      intro m k _
      rfl
  | cons o rest ih =>
      intro m k hk
      simp only [List.mem_cons, not_or] at hk
      rw [seed_outputs, ih _ _ hk.2, upd_other _ _ _ _ hk.1]

/-- Seeding only appends: an existing consumer survives seeding. -/
theorem seed_outputs_keep :
    ∀ (outs : List String) (m : UsersMap) (k : String) (v : List NUser)
      (x : NUser), m k = some v → x ∈ v →
      ∃ v', seed_outputs outs m k = some v' ∧ x ∈ v' := by
  intro outs
  induction outs with
  | nil =>
      intro m k v x hv hx
      exact ⟨v, hv, hx⟩
  | cons o rest ih =>
      intro m k v x hv hx
      rw [seed_outputs]
      by_cases h : k = o
      · subst h
        refine ih _ k (v ++ [NUser.output (Dep.star k)]) x ?_
          (List.mem_append_left _ hx)
        rw [upd_self, hv]
        rfl
      · exact ih _ k v x (by rw [upd_other _ _ _ _ h]; exact hv) hx

/-- Every declared output name's entry carries its output sentinel after
seeding. -/
theorem seed_outputs_mem :
    ∀ (outs : List String) (m : UsersMap) (k : String), k ∈ outs →
      (∀ k', (m k').isSome = true) →
      ∃ v, seed_outputs outs m k = some v ∧
        NUser.output (Dep.star k) ∈ v := by
  intro outs
  induction outs with
  | nil =>
      intro m k hk
      simp at hk
  | cons o rest ih =>
      intro m k hk hm
      rw [seed_outputs]
      by_cases h : k = o
      · subst h
        refine seed_outputs_keep rest _ k _ _ (upd_self _ _ _)
          (List.mem_append_right _ (List.mem_singleton.2 rfl))
      · have hk' : k ∈ rest := by
          rcases List.mem_cons.1 hk with h' | h'
          · exact absurd h' h
          · exact h'
        refine ih _ k hk' ?_
        intro k'
        by_cases h' : k' = o
        · subst h'
          rw [upd_self]
          rfl
        · rw [upd_other _ _ _ _ h']
          exact hm k'

/-- In a list whose first components are pairwise distinct, a key determines
its pair. -/
theorem mem_pair_unique {α β : Type} :
    ∀ (l : List (α × β)) (a : α) (b c : β), (l.map Prod.fst).Nodup →
      (a, b) ∈ l → (a, c) ∈ l → b = c := by
  intro l
  induction l with
  | nil =>
      intro a b c _ hb
      simp at hb
  | cons p rest ih =>
      intro a b c hnd hb hc
      obtain ⟨p1, p2⟩ := p
      simp only [List.map_cons, List.nodup_cons] at hnd
      rcases List.mem_cons.1 hb with hb' | hbr
      · rcases List.mem_cons.1 hc with hc' | hcr
        · injection hb' with e1 e2
          injection hc' with f1 f2
          rw [e2, f2]
        · injection hb' with e1 e2
          subst e1
          exact absurd (show a ∈ List.map Prod.fst rest from
            List.mem_map.2 ⟨(a, c), hcr, rfl⟩) hnd.1
      · rcases List.mem_cons.1 hc with hc' | hcr
        · injection hc' with e1 e2
          subst e1
          exact absurd (show a ∈ List.map Prod.fst rest from
            List.mem_map.2 ⟨(a, b), hbr, rfl⟩) hnd.1
        · exact ih a b c hnd.2 hbr hcr

theorem mem_prune_deps (avail : Finset String) (u : Finset Dep) (d : Dep) :
    d ∈ prune_deps avail u ↔ d ∈ u ∧ Dep.name d ∉ avail := by
  simp [prune_deps]

theorem hit_pending_false_iff (pending : Finset String) (u : Finset Dep) :
    hit_pending pending u = false ↔ ∀ d ∈ u, Dep.name d ∉ pending := by
  simp [hit_pending, decide_eq_false_iff_not,
    Finset.not_nonempty_iff_eq_empty, Finset.filter_eq_empty_iff]

theorem enqueue1_empty (st : SState) (n : GNode) (u : Finset Dep)
    (h : u = ∅) :
    enqueue1 st n u = { st with runnable := st.runnable ++ [n] } := by
  simp [enqueue1, h]

theorem enqueue1_nonempty (st : SState) (n : GNode) (u : Finset Dep)
    (h : u ≠ ∅) :
    enqueue1 st n u = { st with blocked := st.blocked ++ [(n, u)] } := by
  simp [enqueue1, h]

theorem enqueue1_fields (st : SState) (n : GNode) (u : Finset Dep) :
    (enqueue1 st n u).available = st.available ∧
    (enqueue1 st n u).pending = st.pending ∧
    (enqueue1 st n u).done = st.done ∧
    (enqueue1 st n u).run_count = st.run_count := by
  by_cases h : u = ∅ <;> simp [enqueue1, h]

theorem foldl_run_node_fields :
    ∀ (popped : List GNode) (st : SState),
      (popped.foldl run_node st).available = st.available ∧
      (popped.foldl run_node st).runnable = st.runnable ∧
      (popped.foldl run_node st).blocked = st.blocked ∧
      (popped.foldl run_node st).done = st.done ++ popped ∧
      (popped.foldl run_node st).run_count = st.run_count + popped.length ∧
      ∀ x, x ∈ (popped.foldl run_node st).pending ↔
        x ∈ st.pending ∨ x ∈ popped.map GNode.name := by
  intro popped
  induction popped with
  | nil =>
      intro st
      simp
  | cons n rest ih =>
      intro st
      obtain ⟨h1, h2, h3, h4, h5, h6⟩ := ih (run_node st n)
      refine ⟨h1, h2, h3, ?_, ?_, ?_⟩
      · rw [List.foldl_cons, h4]
        simp [run_node]
      · rw [List.foldl_cons, h5]
        simp [run_node]
        omega
      · intro x
        rw [List.foldl_cons, h6 x]
        simp only [run_node, Finset.mem_insert, List.map_cons, List.mem_cons]
        tauto

theorem foldl_enqueue1_fields (A : Finset String) :
    ∀ (ps : List (GNode × Finset Dep)) (st : SState),
      (ps.foldl (fun s p => enqueue1 s p.1 (prune_deps A p.2)) st).available =
        st.available ∧
      (ps.foldl (fun s p => enqueue1 s p.1 (prune_deps A p.2)) st).pending =
        st.pending ∧
      (ps.foldl (fun s p => enqueue1 s p.1 (prune_deps A p.2)) st).done =
        st.done ∧
      (ps.foldl (fun s p => enqueue1 s p.1 (prune_deps A p.2)) st).run_count =
        st.run_count := by
  intro ps
  induction ps with
  | nil =>
      intro st
      exact ⟨rfl, rfl, rfl, rfl⟩
  | cons p rest ih =>
      intro st
      obtain ⟨h1, h2, h3, h4⟩ := ih (enqueue1 st p.1 (prune_deps A p.2))
      obtain ⟨e1, e2, e3, e4⟩ := enqueue1_fields st p.1 (prune_deps A p.2)
      rw [List.foldl_cons]
      exact ⟨h1.trans e1, h2.trans e2, h3.trans e3, h4.trans e4⟩

/-- Changing only the node-list index of the invariant to a permuted
list. -/
theorem SInv_congr_nodes (inputs : Finset String) (ns ns' : List GNode)
    (st : SState) (h : SInv inputs ns st)
    (he : (ns : Multiset GNode) = ↑ns') : SInv inputs ns' st :=
  ⟨h.perm.trans he, h.runnable_ready, h.blocked_sub, h.blocked_ne,
    h.blocked_fresh, h.blocked_rest, h.done_names, h.count_eq, h.inputs_sub⟩

/-- Enqueueing one node (with its pruned unmet set) preserves the
invariant, the node joining the partition. -/
theorem enqueue1_inv (inputs : Finset String) (ns : List GNode)
    (st : SState) (n : GNode) (u : Finset Dep)
    (hinv : SInv inputs ns st) (hsub : u ⊆ n.reads)
    (hrest : ∀ d ∈ n.reads, d ∉ u → Dep.name d ∈ st.available) :
    SInv inputs (ns ++ [n]) (enqueue1 st n (prune_deps st.available u)) := by
  by_cases hemp : prune_deps st.available u = ∅
  · rw [enqueue1_empty _ _ _ hemp]
    refine ⟨?_, ?_, hinv.blocked_sub, hinv.blocked_ne, hinv.blocked_fresh,
      hinv.blocked_rest, hinv.done_names, hinv.count_eq, hinv.inputs_sub⟩
    · show (↑(st.runnable ++ [n]) : Multiset GNode) +
        ↑(st.blocked.map Prod.fst) + ↑st.done = ↑(ns ++ [n])
      rw [← Multiset.coe_add, ← Multiset.coe_add, ← hinv.perm]
      abel
    · intro m hm d hd
      rcases List.mem_append.1 hm with hm | hm
      · exact hinv.runnable_ready m hm d hd
      · have hmn : m = n := by simpa using hm
        subst hmn
        by_cases hdu : d ∈ u
        · by_contra hna
          have : d ∈ prune_deps st.available u :=
            (mem_prune_deps _ _ _).2 ⟨hdu, hna⟩
          rw [hemp] at this
          simp at this
        · exact hrest d hd hdu
  · rw [enqueue1_nonempty _ _ _ hemp]
    refine ⟨?_, hinv.runnable_ready, ?_, ?_, ?_, ?_, hinv.done_names,
      hinv.count_eq, hinv.inputs_sub⟩
    · show (↑st.runnable : Multiset GNode) +
        ↑((st.blocked ++ [(n, prune_deps st.available u)]).map Prod.fst) +
        ↑st.done = ↑(ns ++ [n])
      rw [List.map_append, ← Multiset.coe_add, ← Multiset.coe_add,
        ← hinv.perm]
      simp only [List.map_cons, List.map_nil]
      abel
    · intro p hp
      rcases List.mem_append.1 hp with hp | hp
      · exact hinv.blocked_sub p hp
      · have hpn : p = (n, prune_deps st.available u) := by simpa using hp
        subst hpn
        intro d hd
        exact hsub ((mem_prune_deps _ _ _).1 hd).1
    · intro p hp
      rcases List.mem_append.1 hp with hp | hp
      · exact hinv.blocked_ne p hp
      · have hpn : p = (n, prune_deps st.available u) := by simpa using hp
        subst hpn
        exact hemp
    · intro p hp
      rcases List.mem_append.1 hp with hp | hp
      · exact hinv.blocked_fresh p hp
      · have hpn : p = (n, prune_deps st.available u) := by simpa using hp
        subst hpn
        intro d hd
        exact ((mem_prune_deps _ _ _).1 hd).2
    · intro p hp
      rcases List.mem_append.1 hp with hp | hp
      · exact hinv.blocked_rest p hp
      · have hpn : p = (n, prune_deps st.available u) := by simpa using hp
        subst hpn
        intro d hd hdu
        by_cases hdin : d ∈ u
        · by_contra hna
          exact hdu ((mem_prune_deps _ _ _).2 ⟨hdin, hna⟩)
        · exact hrest d hd hdin

/-- Enqueueing a batch of (node, unmet set) pairs, each pruned against the
fixed available set `A`, preserves the invariant. -/
theorem enqueue_fold_inv (inputs A : Finset String) :
    ∀ (ps : List (GNode × Finset Dep)) (ns : List GNode) (st : SState),
      SInv inputs ns st → st.available = A →
      (∀ p ∈ ps, p.2 ⊆ p.1.reads ∧
        ∀ d ∈ p.1.reads, d ∉ p.2 → Dep.name d ∈ A) →
      SInv inputs (ns ++ ps.map Prod.fst)
        (ps.foldl (fun s p => enqueue1 s p.1 (prune_deps A p.2)) st) := by
  intro ps
  induction ps with
  | nil =>
      intro ns st hinv _ _
      simpa using hinv
  | cons p rest ih =>
      intro ns st hinv hA hps
      rw [List.foldl_cons]
      have hstep : SInv inputs (ns ++ [p.1])
          (enqueue1 st p.1 (prune_deps A p.2)) := by
        rw [← hA]
        refine enqueue1_inv inputs ns st p.1 p.2 hinv
          (hps p (List.mem_cons_self _ _)).1 ?_
        intro d hd hdu
        rw [hA]
        exact (hps p (List.mem_cons_self _ _)).2 d hd hdu
      have hA' : (enqueue1 st p.1 (prune_deps A p.2)).available = A :=
        (enqueue1_fields st p.1 (prune_deps A p.2)).1.trans hA
      have := ih (ns ++ [p.1]) (enqueue1 st p.1 (prune_deps A p.2)) hstep hA'
        (fun q hq => hps q (List.mem_cons_of_mem _ hq))
      rw [List.map_cons, List.append_cons]
      exact this

/-- The initial scheduler state satisfies the invariant with the whole node
list, the graph inputs available, and nothing pending, done or counted. -/
theorem init_state_inv (inputs : Finset String) (nodes : List GNode) :
    SInv inputs nodes (init_state inputs nodes) ∧
    (init_state inputs nodes).available = inputs ∧
    (init_state inputs nodes).pending = ∅ ∧
    (init_state inputs nodes).done = [] ∧
    (init_state inputs nodes).run_count = 0 := by
  have hbase : SInv inputs [] ⟨inputs, ∅, [], [], [], 0⟩ := by
    refine ⟨?_, ?_, ?_, ?_, ?_, ?_, ?_, rfl, Finset.Subset.refl _⟩
    · rfl
    · intro n hn
      simp at hn
    · intro p hp
      simp at hp
    · intro p hp
      simp at hp
    · intro p hp
      simp at hp
    · intro p hp
      simp at hp
    · intro n hn
      simp at hn
  have heq : init_state inputs nodes =
      (nodes.map fun n => (n, n.reads)).foldl
        (fun s p => enqueue1 s p.1 (prune_deps inputs p.2))
        ⟨inputs, ∅, [], [], [], 0⟩ := by
    rw [List.foldl_map]
    rfl
  have hps : ∀ p ∈ nodes.map fun n => (n, n.reads),
      p.2 ⊆ p.1.reads ∧
      ∀ d ∈ p.1.reads, d ∉ p.2 → Dep.name d ∈ inputs := by
    intro p hp
    obtain ⟨n, -, rfl⟩ := List.mem_map.1 hp
    exact ⟨Finset.Subset.refl _, fun d hd hdu => absurd hd hdu⟩
  have hmain := enqueue_fold_inv inputs inputs
    (nodes.map fun n => (n, n.reads)) [] ⟨inputs, ∅, [], [], [], 0⟩
    hbase rfl hps
  have hmapfst : ∀ l : List GNode,
      ((l.map fun n => (n, n.reads)).map Prod.fst) = l := by
    intro l
    induction l with
    | nil => rfl
    | cons a t ih => simp [ih]
  have hmapfst := hmapfst nodes
  rw [hmapfst] at hmain
  obtain ⟨f1, f2, f3, f4⟩ := foldl_enqueue1_fields inputs
    (nodes.map fun n => (n, n.reads)) ⟨inputs, ∅, [], [], [], 0⟩
  rw [heq]
  exact ⟨by simpa using hmain, f1, f2, f3, f4⟩

/-- The barrier unfolded: promote pending, keep the unpopped blocked
entries, and re-enqueue the popped ones pruned against the enlarged
available set. -/
theorem barrier_eq (st : SState) :
    barrier st =
      (st.blocked.filter (fun p => hit_pending st.pending p.2)).foldl
        (fun s p =>
          enqueue1 s p.1 (prune_deps (st.available ∪ st.pending) p.2))
        { st with
          available := st.available ∪ st.pending
          pending := ∅
          blocked := st.blocked.filter
            (fun p => !hit_pending st.pending p.2) } :=
  rfl

/-- The group-draining step unfolded. -/
theorem run_group_eq (st : SState) (g : Nat) :
    run_group st g =
      (st.runnable.filter (fun n => n.group == g)).foldl run_node
        { st with
          runnable := st.runnable.filter (fun n => !(n.group == g)) } :=
  rfl

/-- `Scheduler.barrier` preserves the invariant, unions the pending names
into the available set, clears the pending set, and runs nothing. -/
theorem barrier_inv (inputs : Finset String) (ns : List GNode) (st : SState)
    (hinv : SInv inputs ns st) :
    SInv inputs ns (barrier st) ∧
    (barrier st).available = st.available ∪ st.pending ∧
    (barrier st).pending = ∅ ∧
    (barrier st).done = st.done ∧
    (barrier st).run_count = st.run_count := by
  have hst1inv : SInv inputs
      (st.runnable ++
        (st.blocked.filter fun p => !hit_pending st.pending p.2).map
          Prod.fst ++ st.done)
      { st with
        available := st.available ∪ st.pending
        pending := ∅
        blocked := st.blocked.filter
          (fun p => !hit_pending st.pending p.2) } := by
    refine ⟨?_, ?_, ?_, ?_, ?_, ?_, ?_, hinv.count_eq, ?_⟩
    · simp only [← Multiset.coe_add, List.append_assoc]
      abel
    · intro n hn d hd
      exact Finset.mem_union_left _ (hinv.runnable_ready n hn d hd)
    · intro p hp
      exact hinv.blocked_sub p (List.mem_filter.1 hp).1
    · intro p hp
      exact hinv.blocked_ne p (List.mem_filter.1 hp).1
    · intro p hp d hd
      have hmem := (List.mem_filter.1 hp).1
      have hhit : hit_pending st.pending p.2 = false := by
        have := (List.mem_filter.1 hp).2
        simpa using this
      have hnp : Dep.name d ∉ st.pending :=
        (hit_pending_false_iff _ _).1 hhit d hd
      have hna : Dep.name d ∉ st.available := hinv.blocked_fresh p hmem d hd
      simp [Finset.mem_union, hna, hnp]
    · intro p hp d hd hdu
      exact Finset.mem_union_left _
        (hinv.blocked_rest p (List.mem_filter.1 hp).1 d hd hdu)
    · intro n hn
      have h := hinv.done_names n hn
      show GNode.name n ∈ (st.available ∪ st.pending) ∪ ∅
      rw [Finset.union_empty]
      exact h
    · exact Finset.Subset.trans hinv.inputs_sub Finset.subset_union_left
  have hps : ∀ p ∈ st.blocked.filter (fun p => hit_pending st.pending p.2),
      p.2 ⊆ p.1.reads ∧
      ∀ d ∈ p.1.reads, d ∉ p.2 →
        Dep.name d ∈ st.available ∪ st.pending := by
    intro p hp
    have hmem := (List.mem_filter.1 hp).1
    exact ⟨hinv.blocked_sub p hmem,
      fun d hd hdu => Finset.mem_union_left _
        (hinv.blocked_rest p hmem d hd hdu)⟩
  have hfold := enqueue_fold_inv inputs (st.available ∪ st.pending)
    (st.blocked.filter fun p => hit_pending st.pending p.2)
    (st.runnable ++
      (st.blocked.filter fun p => !hit_pending st.pending p.2).map
        Prod.fst ++ st.done)
    _ hst1inv rfl hps
  have hsplit :
      (↑((st.blocked.filter fun p => hit_pending st.pending p.2).map
        Prod.fst) : Multiset GNode) +
      ↑((st.blocked.filter fun p => !hit_pending st.pending p.2).map
        Prod.fst) = ↑(st.blocked.map Prod.fst) := by
    rw [Multiset.coe_add, ← List.map_append, Multiset.coe_eq_coe]
    exact (List.filter_append_perm _ _).map Prod.fst
  have he :
      (↑((st.runnable ++
        (st.blocked.filter fun p => !hit_pending st.pending p.2).map
          Prod.fst ++ st.done) ++
        (st.blocked.filter fun p => hit_pending st.pending p.2).map
          Prod.fst) : Multiset GNode) = ↑ns := by
    rw [← hinv.perm, ← hsplit]
    simp only [← Multiset.coe_add]
    abel
  have hmain := SInv_congr_nodes inputs _ ns _ hfold he
  obtain ⟨f1, f2, f3, f4⟩ :=
    foldl_enqueue1_fields (st.available ∪ st.pending)
      (st.blocked.filter fun p => hit_pending st.pending p.2)
      { st with
        available := st.available ∪ st.pending
        pending := ∅
        blocked := st.blocked.filter
          (fun p => !hit_pending st.pending p.2) }
  rw [barrier_eq]
  exact ⟨hmain, f1, f2, f3, f4⟩

/-- Draining one group preserves the invariant and appends exactly the
drained nodes to the run list. -/
theorem run_group_inv (inputs : Finset String) (ns : List GNode)
    (st : SState) (g : Nat) (hinv : SInv inputs ns st) :
    SInv inputs ns (run_group st g) ∧
    (run_group st g).done =
      st.done ++ st.runnable.filter (fun n => n.group == g) := by
  obtain ⟨h1, h2, h3, h4, h5, h6⟩ := foldl_run_node_fields
    (st.runnable.filter (fun n => n.group == g))
    { st with runnable := st.runnable.filter (fun n => !(n.group == g)) }
  rw [run_group_eq]
  have hsplitR :
      (↑(st.runnable.filter (fun n => n.group == g)) : Multiset GNode) +
      ↑(st.runnable.filter (fun n => !(n.group == g))) = ↑st.runnable := by
    rw [Multiset.coe_add, Multiset.coe_eq_coe]
    exact List.filter_append_perm _ _
  refine ⟨⟨?_, ?_, ?_, ?_, ?_, ?_, ?_, ?_, ?_⟩, h4⟩
  · rw [h2, h3, h4]
    show (↑(st.runnable.filter fun n => !(n.group == g)) : Multiset GNode) +
      ↑(st.blocked.map Prod.fst) +
      ↑(st.done ++ st.runnable.filter fun n => n.group == g) = ↑ns
    rw [← hinv.perm, ← hsplitR]
    simp only [← Multiset.coe_add]
    abel
  · intro n hn d hd
    rw [h2] at hn
    rw [h1]
    exact hinv.runnable_ready n (List.mem_filter.1 hn).1 d hd
  · intro p hp
    rw [h3] at hp
    exact hinv.blocked_sub p hp
  · intro p hp
    rw [h3] at hp
    exact hinv.blocked_ne p hp
  · intro p hp d hd
    rw [h3] at hp
    rw [h1]
    exact hinv.blocked_fresh p hp d hd
  · intro p hp d hd hdu
    rw [h3] at hp
    rw [h1]
    exact hinv.blocked_rest p hp d hd hdu
  · intro n hn
    rw [h4] at hn
    rw [h1]
    rcases List.mem_append.1 hn with hn | hn
    · have h := hinv.done_names n hn
      rcases Finset.mem_union.1 h with h | h
      · exact Finset.mem_union_left _ h
      · exact Finset.mem_union_right _ ((h6 _).2 (Or.inl h))
    · exact Finset.mem_union_right _
        ((h6 _).2 (Or.inr (List.mem_map.2 ⟨n, hn, rfl⟩)))
  · rw [h5, h4]
    show st.run_count + _ = (st.done ++ _).length
    rw [hinv.count_eq, List.length_append]
  · rw [h1]
    exact hinv.inputs_sub

/-- One protocol round preserves the invariant, ends with an empty pending
set, and runs at least one node. -/
theorem round_inv (inputs : Finset String) (ns : List GNode) (st : SState)
    (hinv : SInv inputs ns st) (hne : st.runnable ≠ []) :
    SInv inputs ns (round st) ∧ (round st).pending = ∅ ∧
    st.done.length < (round st).done.length := by
  obtain ⟨hg1, hg2⟩ := run_group_inv inputs ns st (pick_group st) hinv
  obtain ⟨hb1, hb2, hb3, hb4, hb5⟩ := barrier_inv inputs ns _ hg1
  have hpop : st.runnable.filter (fun n => n.group == pick_group st) ≠ [] := by
    cases hf : st.runnable.find? (fun n => n.is_reduction) with
    | some r =>
        have hrmem : r ∈ st.runnable := List.mem_of_find?_eq_some hf
        have hpg : pick_group st = r.group := by
          rw [pick_group, hf]
        intro hnil
        have : r ∈ st.runnable.filter
            (fun n => n.group == pick_group st) :=
          List.mem_filter.2 ⟨hrmem, by rw [hpg]; simp⟩
        rw [hnil] at this
        simp at this
    | none =>
        rcases hrn : st.runnable with _ | ⟨n, l⟩
        · exact absurd hrn hne
        · intro hnil
          have hpg : pick_group st = n.group := by
            rw [pick_group, hf, hrn]
          have hmm : n ∈ (n :: l).filter
              (fun m => m.group == pick_group st) :=
            List.mem_filter.2 ⟨List.mem_cons_self _ _, by rw [hpg]; simp⟩
          rw [hnil] at hmm
          simp at hmm
  refine ⟨hb1, hb3, ?_⟩
  show st.done.length < (barrier (run_group st (pick_group st))).done.length
  rw [hb4, hg2, List.length_append]
  have := List.length_pos.2 hpop
  omega

/-- When the pools are exhausted at a barrier-clean state, no node can
remain blocked: the rank-minimal blocked node would have all its reads
available, contradicting the freshness of its nonempty unmet set. -/
theorem blocked_empty_final (inputs : Finset String) (ns : List GNode)
    (rank : GNode → Nat)
    (htopo : ∀ n ∈ ns, ∀ d ∈ n.reads, Dep.name d ∈ inputs ∨
      ∃ m ∈ ns, m.name = Dep.name d ∧ rank m < rank n)
    (st : SState) (hinv : SInv inputs ns st) (hp : st.pending = ∅)
    (hr : st.runnable = []) : st.blocked = [] := by
  have key : ∀ (k : Nat) (p : GNode × Finset Dep), p ∈ st.blocked →
      rank p.1 < k → False := by
    intro k
    induction k with
    | zero =>
        intro p _ hlt
        omega
    | succ k ih =>
        intro p hpmem hlt
        obtain ⟨d, hd⟩ :=
          Finset.nonempty_iff_ne_empty.2 (hinv.blocked_ne p hpmem)
        have hdn : Dep.name d ∉ st.available :=
          hinv.blocked_fresh p hpmem d hd
        have hdr : d ∈ p.1.reads := hinv.blocked_sub p hpmem hd
        have hp1 : p.1 ∈ ns := by
          have hm : p.1 ∈ ((st.runnable : Multiset GNode) +
              ↑(st.blocked.map Prod.fst) + ↑st.done) := by
            rw [Multiset.mem_add]
            exact Or.inl (Multiset.mem_add.2 (Or.inr
              (Multiset.mem_coe.2 (List.mem_map.2 ⟨p, hpmem, rfl⟩))))
          rw [hinv.perm] at hm
          exact Multiset.mem_coe.1 hm
        rcases htopo p.1 hp1 d hdr with hin | ⟨m, hm, hmn, hmr⟩
        · exact hdn (hinv.inputs_sub hin)
        · have hloc : m ∈ st.runnable ∨ m ∈ st.blocked.map Prod.fst ∨
              m ∈ st.done := by
            have hmm : m ∈ ((st.runnable : Multiset GNode) +
                ↑(st.blocked.map Prod.fst) + ↑st.done) := by
              rw [hinv.perm]
              exact Multiset.mem_coe.2 hm
            simpa [Multiset.mem_add, Multiset.mem_coe, or_assoc] using hmm
          rcases hloc with h1 | h2 | h3
          · rw [hr] at h1
            simp at h1
          · obtain ⟨q, hq, hqf⟩ := List.mem_map.1 h2
            refine ih q hq ?_
            rw [hqf]
            omega
          · have hdone := hinv.done_names m h3
            rw [hp, Finset.union_empty] at hdone
            rw [hmn] at hdone
            exact hdn hdone
  cases hb : st.blocked with
  | nil => rfl
  | cons p rest =>
      exfalso
      exact key (rank p.1 + 1) p
        (by rw [hb]; exact List.mem_cons_self _ _) (Nat.lt_succ_self _)

/-- Driving to exhaustion with enough fuel empties both pools and runs
exactly the retained nodes. -/
theorem drive_spec (inputs : Finset String) (ns : List GNode)
    (rank : GNode → Nat)
    (htopo : ∀ n ∈ ns, ∀ d ∈ n.reads, Dep.name d ∈ inputs ∨
      ∃ m ∈ ns, m.name = Dep.name d ∧ rank m < rank n) :
    ∀ (fuel : Nat) (st : SState), SInv inputs ns st → st.pending = ∅ →
      ns.length ≤ st.done.length + fuel →
      (drive fuel st).runnable = [] ∧ (drive fuel st).blocked = [] ∧
      (drive fuel st).run_count = ns.length ∧
      List.Perm (drive fuel st).done ns := by
  intro fuel
  induction fuel with
  | zero =>
      intro st hinv hp hlen
      rw [drive]
      have hcard : st.runnable.length +
          (st.blocked.length + st.done.length) = ns.length := by
        have hc := congrArg Multiset.card hinv.perm
        simpa [Multiset.coe_card] using hc
      have h1 : st.runnable = [] :=
        List.eq_nil_of_length_eq_zero (by omega)
      have h2 : st.blocked = [] :=
        List.eq_nil_of_length_eq_zero (by omega)
      have hdone : List.Perm st.done ns := by
        have hperm := hinv.perm
        rw [h1, h2] at hperm
        simp only [List.map_nil] at hperm
        rw [← Multiset.coe_eq_coe]
        simpa using hperm
      refine ⟨h1, h2, ?_, hdone⟩
      rw [hinv.count_eq, hdone.length_eq]
  | succ fuel ih =>
      intro st hinv hp hlen
      rw [drive]
      by_cases hr : st.runnable = []
      · rw [if_pos hr]
        have hb := blocked_empty_final inputs ns rank htopo st hinv hp hr
        have hdone : List.Perm st.done ns := by
          have hperm := hinv.perm
          rw [hr, hb] at hperm
          simp only [List.map_nil] at hperm
          rw [← Multiset.coe_eq_coe]
          simpa using hperm
        refine ⟨hr, hb, ?_, hdone⟩
        rw [hinv.count_eq, hdone.length_eq]
      · rw [if_neg hr]
        obtain ⟨hinv', hp', hlt⟩ := round_inv inputs ns st hinv hr
        exact ih (round st) hinv' hp' (by omega)

/-- C4 -- scheduling completeness: on an acyclic dependency graph (ranked
topologically) of retained nodes, driving group iteration to exhaustion
with barriers after each drained group leaves the runnable pool empty and
the blocked index empty, sets the run counter to the number of retained
nodes, and runs every retained node exactly once (the run list is a
permutation of the node list) -- the terminal assertions of
`iter_runable_groups` hold. -/
theorem c4_scheduler_completeness (inputs : Finset String)
    (nodes : List GNode) (rank : GNode → Nat)
    (htopo : ∀ n ∈ nodes, ∀ d ∈ n.reads, Dep.name d ∈ inputs ∨
      ∃ m ∈ nodes, m.name = Dep.name d ∧ rank m < rank n) :
    (drive nodes.length (init_state inputs nodes)).runnable = [] ∧
    (drive nodes.length (init_state inputs nodes)).blocked = [] ∧
    (drive nodes.length (init_state inputs nodes)).run_count =
      nodes.length ∧
    List.Perm (drive nodes.length (init_state inputs nodes)).done nodes := by
  obtain ⟨hinv, -, hp, hd, -⟩ := init_state_inv inputs nodes
  exact drive_spec inputs nodes rank htopo nodes.length _ hinv hp
    (by rw [hd]; simp)

/-- Witness for C4: inputs ∅ and two pointwise nodes, "a" with no reads and
"bb" reading buffer "a", ranked by name length. -/
theorem c4_scheduler_completeness_witness :
    (drive [GNode.mk "a" ∅ 0 false, GNode.mk "bb" {Dep.star "a"} 0 false].length
      (init_state ∅
        [GNode.mk "a" ∅ 0 false,
         GNode.mk "bb" {Dep.star "a"} 0 false])).runnable = [] ∧
    (drive [GNode.mk "a" ∅ 0 false, GNode.mk "bb" {Dep.star "a"} 0 false].length
      (init_state ∅
        [GNode.mk "a" ∅ 0 false,
         GNode.mk "bb" {Dep.star "a"} 0 false])).blocked = [] ∧
    (drive [GNode.mk "a" ∅ 0 false, GNode.mk "bb" {Dep.star "a"} 0 false].length
      (init_state ∅
        [GNode.mk "a" ∅ 0 false,
         GNode.mk "bb" {Dep.star "a"} 0 false])).run_count =
      [GNode.mk "a" ∅ 0 false, GNode.mk "bb" {Dep.star "a"} 0 false].length ∧
    List.Perm
      (drive [GNode.mk "a" ∅ 0 false, GNode.mk "bb" {Dep.star "a"} 0 false].length
        (init_state ∅
          [GNode.mk "a" ∅ 0 false,
           GNode.mk "bb" {Dep.star "a"} 0 false])).done
      [GNode.mk "a" ∅ 0 false, GNode.mk "bb" {Dep.star "a"} 0 false] :=
  c4_scheduler_completeness ∅
    [GNode.mk "a" ∅ 0 false, GNode.mk "bb" {Dep.star "a"} 0 false]
    (fun n => n.name.length) (by decide)

/-- C5 -- barrier staging: running a node adds its buffer name to the
pending set only, never to the available set; the barrier is what moves
pending names into the available set and clears the pending set; hence a
dependency on a buffer not yet available survives pruning even after its
producer ran, until a barrier executes. -/
theorem c5_barrier_staging (st : SState) (n : GNode) :
    (run_node st n).available = st.available ∧
    (run_node st n).pending = insert n.name st.pending ∧
    (barrier st).available = st.available ∪ st.pending ∧
    (barrier st).pending = ∅ ∧
    ∀ (u : Finset Dep) (d : Dep), d ∈ u → Dep.name d ∉ st.available →
      d ∈ prune_deps (run_node st n).available u := by
  refine ⟨rfl, rfl, ?_, ?_, ?_⟩
  · rw [barrier_eq]
    exact (foldl_enqueue1_fields _ _ _).1
  · rw [barrier_eq]
    exact (foldl_enqueue1_fields _ _ _).2.1
  · intro u d hd hna
    exact (mem_prune_deps _ _ _).2 ⟨hd, hna⟩

/-- C10 -- blocked-node freshness: in every reachable scheduler state,
every blocked entry holds a nonempty unmet-dependency set none of whose
dependencies names an available buffer. -/
theorem c10_blocked_freshness (inputs : Finset String) (nodes : List GNode)
    (st : SState) (h : Reachable inputs nodes st) :
    ∀ p ∈ st.blocked, p.2 ≠ ∅ ∧ ∀ d ∈ p.2, Dep.name d ∉ st.available := by
  have hinv : SInv inputs nodes st := by
    induction h with
    | init => exact (init_state_inv inputs nodes).1
    | step_run st' g hr ih => exact (run_group_inv inputs nodes st' g ih).1
    | step_barrier st' hr ih => exact (barrier_inv inputs nodes st' ih).1
  exact fun p hp => ⟨hinv.blocked_ne p hp, hinv.blocked_fresh p hp⟩

/-- Witness for C10 at the initial state of a one-node graph whose node
"b" is blocked on the unavailable buffer "a": the blocked entry's unmet set
is nonempty and names nothing available. -/
theorem c10_blocked_freshness_witness :
    ({Dep.star "a"} : Finset Dep) ≠ ∅ ∧
    ∀ d ∈ ({Dep.star "a"} : Finset Dep),
      Dep.name d ∉ (init_state ∅
        [GNode.mk "b" {Dep.star "a"} 0 false]).available :=
  c10_blocked_freshness ∅ [GNode.mk "b" {Dep.star "a"} 0 false] _
    Reachable.init (GNode.mk "b" {Dep.star "a"} 0 false, {Dep.star "a"})
    (by decide)

/-- C3 -- dead-buffer elimination and output protection: when the
consumer-computation pass completes over nodes with pairwise-distinct
names, a node whose name no other node reads and which is not a declared
output is absent from the active node list and its name is recorded in the
removed-buffers set; and a node whose name is a declared output is assigned
the synthetic whole-buffer output consumer and is retained. -/
theorem c3_dead_buffer_elimination
    (nodes : List CNode) (outputs : List String)
    (asg : List (CNode × Option (List NUser)))
    (hres : compute_users nodes outputs = some asg)
    (hnd : (nodes.map CNode.name).Nodup)
    (nd : CNode) (hmem : nd ∈ nodes) :
    ((nd.name ∉ outputs ∧
        ∀ b ∈ nodes, b ≠ nd → nd.name ∉ b.reads.map Dep.name) →
      nd ∉ updated_nodes asg ∧ nd.name ∈ removed_names asg) ∧
    (nd.name ∈ outputs →
      (∃ us, (nd, some us) ∈ asg ∧ NUser.output (Dep.star nd.name) ∈ us) ∧
      nd ∈ updated_nodes asg) := by
  rw [compute_users] at hres
  split at hres
  · cases hres
  next r hw =>
  cases hres
  have hfst : r.1.map Prod.fst = nodes.reverse := users_walk_fst _ _ _ hw
  have hinj : ∀ x ∈ nodes, ∀ y ∈ nodes, x.name = y.name → x = y := by
    intro x hx y hy
    exact List.inj_on_of_nodup_map hnd hx hy
  have hnames : ∀ h ∈ nodes.reverse, h ≠ nd → h.name ≠ nd.name := by
    intro h hh hne heq
    exact hne (hinj h (List.mem_reverse.1 hh) nd hmem heq)
  have hsome : ∀ k, ((seed_outputs outputs init_users) k).isSome = true :=
    seed_outputs_isSome outputs init_users (fun _ => rfl)
  have hfstnd : (r.1.map Prod.fst).Nodup := by
    rw [hfst, List.nodup_reverse]
    exact hnd.of_map
  constructor
  · rintro ⟨hnout, hnoread⟩
    have hm0 : (seed_outputs outputs init_users) nd.name = some [] := by
      rw [seed_outputs_not_mem outputs init_users nd.name hnout]
      rfl
    have hallreads : ∀ h ∈ nodes.reverse, nd.name ∉ h.reads.map Dep.name := by
      intro h hh
      by_cases hne : h = nd
      · subst hne
        exact users_walk_no_self_read _ _ _ hw h (List.mem_reverse.2 hmem)
      · exact hnoread h (List.mem_reverse.1 hh) hne
    have hassigned : (nd, some ([] : List NUser)) ∈ r.1 :=
      users_walk_untouched _ _ _ hw nd (List.mem_reverse.2 hmem) [] hm0
        hnames hallreads
    constructor
    · intro hin
      obtain ⟨p, hpf, hpfst⟩ := List.mem_map.1 hin
      obtain ⟨p1, p2⟩ := p
      obtain ⟨hpmem, htr⟩ := List.mem_filter.1 hpf
      have hp1 : p1 = nd := hpfst
      have : p2 = some [] :=
        mem_pair_unique r.1 p1 p2 (some []) hfstnd
          (List.mem_reverse.1 hpmem) (hp1.symm ▸ hassigned)
      subst this
      simp [truthy] at htr
    · refine List.mem_map.2 ⟨(nd, some []), List.mem_filter.2 ⟨?_, rfl⟩, rfl⟩
      exact List.mem_reverse.2 hassigned
  · intro hout
    obtain ⟨v, hv, hsent⟩ :=
      seed_outputs_mem outputs init_users nd.name hout (fun _ => rfl)
    obtain ⟨v', hv', hx⟩ := users_walk_gains _ _ _ hw nd
      (List.mem_reverse.2 hmem) v _ hv hsent hnames
    have hmemasg : (nd, some v') ∈ r.1.reverse := List.mem_reverse.2 hv'
    refine ⟨⟨v', hmemasg, hx⟩, ?_⟩
    refine List.mem_map.2 ⟨(nd, some v'), List.mem_filter.2 ⟨hmemasg, ?_⟩, rfl⟩
    have : v' ≠ [] := by
      intro hnil
      subst hnil
      simp at hx
    simp [truthy, List.isEmpty_iff, this]

/-- Witness for C3: a three-node graph where node "a" is read by node "b",
node "b" is the sole declared output, and a dead node "c" is read by
nobody; the dead node is dropped and recorded as removed. -/
theorem c3_dead_buffer_elimination_witness :
    CNode.mk "c" [] ∉ updated_nodes
      [(CNode.mk "a" [], some [NUser.node (CNode.mk "b" [Dep.mem "a" 0])]),
       (CNode.mk "b" [Dep.mem "a" 0], some [NUser.output (Dep.star "b")]),
       (CNode.mk "c" [], some [])] ∧
    (CNode.mk "c" []).name ∈ removed_names
      [(CNode.mk "a" [], some [NUser.node (CNode.mk "b" [Dep.mem "a" 0])]),
       (CNode.mk "b" [Dep.mem "a" 0], some [NUser.output (Dep.star "b")]),
       (CNode.mk "c" [], some [])] :=
  (c3_dead_buffer_elimination
    [CNode.mk "a" [], CNode.mk "b" [Dep.mem "a" 0], CNode.mk "c" []] ["b"]
    [(CNode.mk "a" [], some [NUser.node (CNode.mk "b" [Dep.mem "a" 0])]),
     (CNode.mk "b" [Dep.mem "a" 0], some [NUser.output (Dep.star "b")]),
     (CNode.mk "c" [], some [])]
    (by decide) (by decide) (CNode.mk "c" []) (by decide)).1
    ⟨by decide, by decide⟩

end SchedThm
